import Mathlib

/-!
Verification of the CKD progression-forecasting pipeline
(`ckd_prediction.py`): label monotonization, sequence windowing,
padding, the training/early-stopping harness, patient-level splits,
switch analysis and stage-value coercion.
-/

/-- Embedding of `monotonic_labels` (ckd_prediction.py:80-87): forward pass
with a `has_progressed` accumulator; emits 1 from the first raw flag equal
to 1 onwards. `monoGo` is the loop with the accumulator explicit. -/
def monoGo : List Int → Bool → List Int
  | [], _ => []
  | lab :: rest, has =>
    let has2 := has || (lab == 1)
    (if has2 then 1 else 0) :: monoGo rest has2

/-- `monotonic_labels(labels)`: accumulator starts false. -/
def monotonic_labels (labels : List Int) : List Int :=
  monoGo labels false

theorem monoGo_length (l : List Int) (b : Bool) : (monoGo l b).length = l.length := by
  induction l generalizing b with
  | nil => rfl
  | cons x xs ih => simp [monoGo, ih]

theorem monoGo_getD_eq_one (l : List Int) (b : Bool) (i : Nat) (hi : i < l.length) :
    ((monoGo l b).getD i 0 = 1 ↔ (b = true ∨ ∃ j, j ≤ i ∧ l.getD j 0 = 1)) := by
  induction l generalizing b i with
  | nil => simp at hi
  | cons x xs ih =>
    cases i with
    | zero =>
      show (if (b || (x == 1) : Bool) then (1:Int) else 0) = 1 ↔ _
      cases hc : (b || (x == 1)) with
      | true =>
        simp only [if_pos rfl]
        constructor
        · intro _
          rcases Bool.or_eq_true_iff.mp hc with hb | hx
          · exact Or.inl hb
          · exact Or.inr ⟨0, Nat.le_refl 0, by simpa using eq_of_beq hx⟩
        · intro _; rfl
      | false =>
        have hb : b = false := by
          cases b
          · rfl
          · simp at hc
        have hx : x ≠ 1 := by
          intro hx1
          subst hx1
          simp at hc
        simp only [Bool.false_eq_true, if_neg]
        constructor
        · intro h0
          exact absurd h0 (by decide)
        · rintro (h | ⟨j, hj, hval⟩)
          · rw [hb] at h
            exact absurd h (by decide)
          · have hj0 : j = 0 := Nat.le_zero.mp hj
            subst hj0
            exact absurd (by simpa using hval) hx
    | succ n =>
      have hn : n < xs.length := by simpa using hi
      show (monoGo xs (b || (x == 1))).getD n 0 = 1 ↔ _
      rw [ih (b || (x == 1)) n hn]
      constructor
      · rintro (hb | ⟨j, hj, hval⟩)
        · rcases Bool.or_eq_true_iff.mp hb with hb' | hx'
          · exact Or.inl hb'
          · exact Or.inr ⟨0, by omega, by simpa using eq_of_beq hx'⟩
        · exact Or.inr ⟨j + 1, by omega, by simpa using hval⟩
      · rintro (hb | ⟨j, hj, hval⟩)
        · exact Or.inl (by simp [hb])
        · cases j with
          | zero =>
            have hx1 : x = 1 := by simpa using hval
            exact Or.inl (by simp [hx1])
          | succ m =>
            exact Or.inr ⟨m, by omega, by simpa using hval⟩

theorem monoGo_mem_zero_or_one (l : List Int) (b : Bool) (x : Int)
    (hx : x ∈ monoGo l b) : x = 0 ∨ x = 1 := by
  induction l generalizing b with
  | nil => simp [monoGo] at hx
  | cons y ys ih =>
    simp only [monoGo, List.mem_cons] at hx
    rcases hx with h | h
    · by_cases hc : (b || (y == 1)) = true
      · right; rw [h, if_pos hc]
      · left; rw [h, if_neg hc]
    · exact ih _ h

theorem monoGo_indexOf (l : List Int) :
    (monotonic_labels l).indexOf 1 = l.indexOf 1 := by
  unfold monotonic_labels
  induction l with
  | nil => rfl
  | cons x xs ih =>
    by_cases hx : x = 1
    · subst hx
      simp [monoGo, List.indexOf_cons]
    · have hbeq : (x == 1) = false := by simp [hx]
      simp only [monoGo, hbeq, Bool.or_false, Bool.false_or]
      simp [List.indexOf_cons, hbeq, ih]

/-- C1: `monotonic_labels` preserves length; position `i` of the output is 1
iff some input flag at position `≤ i` equals 1; hence the output is
non-decreasing and the first 1 of the output is at the same position as the
first 1 of the input (`List.indexOf`). -/
theorem c1_monotonic_labels_correct (labels : List Int) :
    (monotonic_labels labels).length = labels.length ∧
    (∀ i, i < labels.length →
      ((monotonic_labels labels).getD i 0 = 1 ↔ ∃ j, j ≤ i ∧ labels.getD j 0 = 1)) ∧
    (∀ i j, i ≤ j → j < labels.length →
      (monotonic_labels labels).getD i 0 ≤ (monotonic_labels labels).getD j 0) ∧
    (monotonic_labels labels).indexOf 1 = labels.indexOf 1 := by
  refine ⟨monoGo_length labels false, ?_, ?_, monoGo_indexOf labels⟩
  · intro i hi
    have := monoGo_getD_eq_one labels false i hi
    simpa [monotonic_labels] using this
  · intro i j hij hj
    simp only [monotonic_labels]
    have hi : i < labels.length := Nat.lt_of_le_of_lt hij hj
    have hmemj : (monoGo labels false).getD j 0 ∈ monoGo labels false := by
      have hjl : j < (monoGo labels false).length := by
        rw [monoGo_length]; exact hj
      rw [List.getD_eq_getElem _ _ hjl]
      exact List.getElem_mem hjl
    have hvj := monoGo_mem_zero_or_one labels false _ hmemj
    have hmemi : (monoGo labels false).getD i 0 ∈ monoGo labels false := by
      have hil : i < (monoGo labels false).length := by
        rw [monoGo_length]; exact hi
      rw [List.getD_eq_getElem _ _ hil]
      exact List.getElem_mem hil
    have hvi := monoGo_mem_zero_or_one labels false _ hmemi
    rcases hvi with hvi | hvi
    · rcases hvj with hvj | hvj
      · rw [hvi, hvj]
      · rw [hvi, hvj]; exact zero_le_one
    · have h1 : (monoGo labels false).getD j 0 = 1 := by
        rw [monoGo_getD_eq_one labels false j hj]
        have := (monoGo_getD_eq_one labels false i hi).mp hvi
        rcases this with h | ⟨j', hj', hval⟩
        · exact Or.inl h
        · exact Or.inr ⟨j', Nat.le_trans hj' hij, hval⟩
      rw [hvi, h1]

/-- Witness for C1 at the spec's example `[0,0,1,0,1] ↦ [0,0,1,1,1]`. -/
theorem c1_witness :
    monotonic_labels [0, 0, 1, 0, 1] = [0, 0, 1, 1, 1] ∧
    ((monotonic_labels [0, 0, 1, 0, 1]).getD 3 0 = 1 ↔
      ∃ j, j ≤ 3 ∧ [(0 : Int), 0, 1, 0, 1].getD j 0 = 1) :=
  ⟨by decide, (c1_monotonic_labels_correct [0, 0, 1, 0, 1]).2.1 3 (by decide)⟩

/-- A metadata row as consumed by `build_sequences`: patient id, event
date, embedding vector and the raw next-visit flag (`next_label`). -/
structure Row where
  patientId : Nat
  eventDate : Int
  embedding : List Int
  next_label : Int
deriving DecidableEq

/-- One element of the list returned by `build_sequences`
(`(context, target, pid, i - 1)`). -/
structure Window where
  context : List (List Int)
  target : Int
  pid : Nat
  local_index : Nat
deriving DecidableEq

/-- Ordered insertion used to model sorting (`sort_values`). -/
def sortedInsert (le : α → α → Bool) (a : α) : List α → List α
  | [] => [a]
  | b :: bs => if le a b then a :: b :: bs else b :: sortedInsert le a bs

/-- Insertion sort; models pandas `sort_values` (tie order is irrelevant to
every claim below). -/
def sortListBy (le : α → α → Bool) (l : List α) : List α :=
  l.foldr (sortedInsert le) []

theorem length_sortedInsert (le : α → α → Bool) (a : α) (l : List α) :
    (sortedInsert le a l).length = l.length + 1 := by
  induction l with
  | nil => rfl
  | cons b bs ih =>
    by_cases h : le a b = true
    · simp [sortedInsert, h]
    · simp [sortedInsert, h, ih]

theorem length_sortListBy (le : α → α → Bool) (l : List α) :
    (sortListBy le l).length = l.length := by
  induction l with
  | nil => rfl
  | cons b bs ih =>
    show (sortedInsert le b (sortListBy le bs)).length = bs.length + 1
    rw [length_sortedInsert]
    exact congrArg (· + 1) ih

theorem mem_sortedInsert (le : α → α → Bool) (a x : α) (l : List α) :
    x ∈ sortedInsert le a l ↔ (x = a ∨ x ∈ l) := by
  induction l with
  | nil => simp [sortedInsert]
  | cons b bs ih =>
    by_cases h : le a b = true
    · simp [sortedInsert, h]
    · simp [sortedInsert, h, ih]
      tauto

theorem mem_sortListBy (le : α → α → Bool) (x : α) (l : List α) :
    x ∈ sortListBy le l ↔ x ∈ l := by
  induction l with
  | nil => simp [sortListBy]
  | cons b bs ih =>
    simp [sortListBy, mem_sortedInsert] at *
    tauto

/-- `group.sort_values(by="EventDate")` (ckd_prediction.py:93). -/
def sortRows (g : List Row) : List Row :=
  sortListBy (fun a b => decide (a.eventDate ≤ b.eventDate)) g

/-- The sorted distinct patient ids: pandas `groupby("PatientID")`
iterates groups in ascending key order. -/
def groupKeys (meta : List Row) : List Nat :=
  sortListBy Nat.ble (meta.map Row.patientId).dedup

/-- `meta.groupby("PatientID")`: each key paired with its rows in
original order. -/
def groupBy (meta : List Row) : List (Nat × List Row) :=
  (groupKeys meta).map (fun k => (k, meta.filter (fun r => r.patientId == k)))

/-- Python slice `l[a:b]` for `0 ≤ a ≤ b`. -/
def pySlice (l : List α) (a b : Nat) : List α :=
  (l.take b).drop a

/-- Per-patient body of `build_sequences` (ckd_prediction.py:92-101): sort
by date, monotonize the raw `next_label` flags, and emit one window per
transition index `i ∈ range(1, len(embeddings))` with
`context = embeddings[max(0, i - window_size) : i]` (Nat subtraction is
the `max(0, ·)`), `target = labels[i-1]`, `local_index = i-1`. -/
def patient_windows (pid : Nat) (group : List Row) (window_size : Nat) : List Window :=
  let g := sortRows group
  let embeddings := g.map Row.embedding
  let original_labels := g.map Row.next_label
  let labels := monotonic_labels original_labels
  (List.range' 1 (embeddings.length - 1)).map (fun i =>
    ⟨pySlice embeddings (i - window_size) i, labels.getD (i - 1) 0, pid, i - 1⟩)

/-- `build_sequences(meta, window_size)` (ckd_prediction.py:89-102). -/
def build_sequences (meta : List Row) (window_size : Nat) : List Window :=
  ((groupBy meta).map (fun pg => patient_windows pg.1 pg.2 window_size)).flatten

theorem patient_windows_length (pid : Nat) (g : List Row) (W : Nat) :
    (patient_windows pid g W).length = g.length - 1 := by
  simp [patient_windows, sortRows, length_sortListBy]

theorem patient_windows_map_local_index (pid : Nat) (g : List Row) (W : Nat) :
    (patient_windows pid g W).map Window.local_index = List.range (g.length - 1) := by
  simp only [patient_windows, List.map_map]
  have hlen : ((sortRows g).map Row.embedding).length = g.length := by
    simp [sortRows, length_sortListBy]
  rw [hlen, List.range'_eq_map_range, List.map_map]
  conv_rhs => rw [← List.map_id (List.range (g.length - 1))]
  apply List.map_congr_left
  intro a _
  simp

/-- C9: every patient contributes exactly one window per transition:
`n` sorted visits give `n - 1` windows (Nat subtraction: zero windows for
fewer than 2 visits, without error), with `local_index` running through
`0 .. n-2`; the total length of `build_sequences` is the sum of the
per-patient counts. -/
theorem c9_one_window_per_transition (pid : Nat) (g : List Row) (W : Nat) (meta : List Row) :
    (patient_windows pid g W).length = g.length - 1 ∧
    (patient_windows pid g W).map Window.local_index = List.range (g.length - 1) ∧
    (g.length < 2 → patient_windows pid g W = []) ∧
    (build_sequences meta W).length =
      (((groupBy meta).map (fun pg => pg.2.length - 1)).sum) := by
  refine ⟨patient_windows_length pid g W, patient_windows_map_local_index pid g W, ?_, ?_⟩
  · intro hlt
    have h0 : g.length - 1 = 0 := by omega
    have := patient_windows_length pid g W
    rw [h0] at this
    exact List.eq_nil_of_length_eq_zero this
  · simp only [build_sequences, List.length_flatten, List.map_map]
    congr 1
    apply List.map_congr_left
    intro pg _
    exact patient_windows_length pg.1 pg.2 W

/-- Witness for C9: 5 visits, window size 3 give exactly 4 windows with
local indices 0..3; an empty group yields no windows. -/
theorem c9_witness :
    (patient_windows 7
      [⟨7, 0, [1], 0⟩, ⟨7, 1, [2], 0⟩, ⟨7, 2, [3], 1⟩, ⟨7, 3, [4], 1⟩, ⟨7, 4, [5], 1⟩]
      3).length = 5 - 1 ∧
    (patient_windows 7
      [⟨7, 0, [1], 0⟩, ⟨7, 1, [2], 0⟩, ⟨7, 2, [3], 1⟩, ⟨7, 3, [4], 1⟩, ⟨7, 4, [5], 1⟩]
      3).map Window.local_index = List.range (5 - 1) ∧
    patient_windows 9 [] 3 = [] :=
  ⟨(c9_one_window_per_transition 7
      [⟨7, 0, [1], 0⟩, ⟨7, 1, [2], 0⟩, ⟨7, 2, [3], 1⟩, ⟨7, 3, [4], 1⟩, ⟨7, 4, [5], 1⟩]
      3 []).1,
   (c9_one_window_per_transition 7
      [⟨7, 0, [1], 0⟩, ⟨7, 1, [2], 0⟩, ⟨7, 2, [3], 1⟩, ⟨7, 3, [4], 1⟩, ⟨7, 4, [5], 1⟩]
      3 []).2.1,
   (c9_one_window_per_transition 9 [] 3 []).2.2.1 (by decide)⟩

theorem patient_windows_getD (pid : Nat) (g : List Row) (W : Nat) (i : Nat)
    (h1 : 1 ≤ i) (h2 : i < (sortRows g).length) :
    (patient_windows pid g W).getD (i - 1) ⟨[], 0, 0, 0⟩ =
      ⟨pySlice ((sortRows g).map Row.embedding) (i - W) i,
       (monotonic_labels ((sortRows g).map Row.next_label)).getD (i - 1) 0,
       pid, i - 1⟩ := by
  have hn : (sortRows g).length = g.length := by
    simp [sortRows, length_sortListBy]
  have hlt : i - 1 < (patient_windows pid g W).length := by
    rw [patient_windows_length]
    omega
  rw [List.getD_eq_getElem _ _ hlt]
  have hemb : ((sortRows g).map Row.embedding).length = g.length := by
    simp [hn]
  simp only [patient_windows, List.getElem_map, List.getElem_range', hemb]
  have hi1 : 1 + 1 * (i - 1) = i := by omega
  rw [hi1]

theorem mem_build_sequences_of_mem_patient_windows (meta : List Row) (W : Nat)
    (pid : Nat) (g : List Row) (hpg : (pid, g) ∈ groupBy meta) (w : Window)
    (hw : w ∈ patient_windows pid g W) : w ∈ build_sequences meta W := by
  simp only [build_sequences, List.mem_flatten]
  refine ⟨patient_windows pid g W, ?_, hw⟩
  simp only [List.mem_map]
  exact ⟨(pid, g), hpg, rfl⟩

/-- C2: for each patient group and each transition index `i ∈ [1, n-1]`,
the emitted window has context `embeddings[max(0, i-W) : i]` (visits
strictly before position `i`; Nat subtraction realizes the max),
target `monotonic_labels(next_flags)[i-1]` and `local_index = i-1`; the
target is 1 iff some next-visit flag at position `< i` is 1, i.e. it is
built from the flags of the visits *following* each context visit
(one-step-ahead), never from the current-visit label of the last context
visit. -/
theorem c2_window_alignment (meta : List Row) (W : Nat) (pid : Nat) (g : List Row)
    (hpg : (pid, g) ∈ groupBy meta) (i : Nat) (h1 : 1 ≤ i)
    (h2 : i < (sortRows g).length) :
    ∃ w : Window,
      w ∈ build_sequences meta W ∧
      (patient_windows pid g W).getD (i - 1) ⟨[], 0, 0, 0⟩ = w ∧
      w.context = pySlice ((sortRows g).map Row.embedding) (i - W) i ∧
      w.target = (monotonic_labels ((sortRows g).map Row.next_label)).getD (i - 1) 0 ∧
      w.pid = pid ∧ w.local_index = i - 1 ∧
      (w.target = 1 ↔ ∃ j, j < i ∧ ((sortRows g).map Row.next_label).getD j 0 = 1) := by
  refine ⟨⟨pySlice ((sortRows g).map Row.embedding) (i - W) i,
    (monotonic_labels ((sortRows g).map Row.next_label)).getD (i - 1) 0,
    pid, i - 1⟩, ?_, patient_windows_getD pid g W i h1 h2, rfl, rfl, rfl, rfl, ?_⟩
  · apply mem_build_sequences_of_mem_patient_windows meta W pid g hpg
    have hlt : i - 1 < (patient_windows pid g W).length := by
      rw [patient_windows_length]
      have hn : (sortRows g).length = g.length := by
        simp [sortRows, length_sortListBy]
      omega
    rw [← patient_windows_getD pid g W i h1 h2, List.getD_eq_getElem _ _ hlt]
    exact List.getElem_mem hlt
  · have hlen : i - 1 < ((sortRows g).map Row.next_label).length := by
      simp only [List.length_map]
      omega
    have := monoGo_getD_eq_one ((sortRows g).map Row.next_label) false (i - 1) hlen
    simp only [monotonic_labels]
    rw [this]
    constructor
    · rintro (hb | ⟨j, hj, hval⟩)
      · exact absurd hb (by decide)
      · exact ⟨j, by omega, hval⟩
    · rintro ⟨j, hj, hval⟩
      exact Or.inr ⟨j, by omega, hval⟩

/-- Witness for C2: one patient with three chronological visits, `W = 2`,
transition `i = 2`. -/
theorem c2_witness :
    ∃ w : Window,
      w ∈ build_sequences [⟨7, 0, [10], 0⟩, ⟨7, 1, [20], 1⟩, ⟨7, 2, [30], 0⟩] 2 ∧
      (patient_windows 7 [⟨7, 0, [10], 0⟩, ⟨7, 1, [20], 1⟩, ⟨7, 2, [30], 0⟩] 2).getD
        (2 - 1) ⟨[], 0, 0, 0⟩ = w ∧
      w.context = pySlice ((sortRows [⟨7, 0, [10], 0⟩, ⟨7, 1, [20], 1⟩, ⟨7, 2, [30], 0⟩]).map
        Row.embedding) (2 - 2) 2 ∧
      w.target = (monotonic_labels ((sortRows
        [⟨7, 0, [10], 0⟩, ⟨7, 1, [20], 1⟩, ⟨7, 2, [30], 0⟩]).map Row.next_label)).getD
        (2 - 1) 0 ∧
      w.pid = 7 ∧ w.local_index = 2 - 1 ∧
      (w.target = 1 ↔ ∃ j, j < 2 ∧ ((sortRows
        [⟨7, 0, [10], 0⟩, ⟨7, 1, [20], 1⟩, ⟨7, 2, [30], 0⟩]).map Row.next_label).getD
        j 0 = 1) :=
  c2_window_alignment [⟨7, 0, [10], 0⟩, ⟨7, 1, [20], 1⟩, ⟨7, 2, [30], 0⟩] 2 7
    [⟨7, 0, [10], 0⟩, ⟨7, 1, [20], 1⟩, ⟨7, 2, [30], 0⟩] (by decide) 2 (by decide) (by decide)

/-- `np.zeros(dim)`: the zero vector of dimension `dim`. -/
def zeroVec (dim : Nat) : List Int :=
  List.replicate dim 0

/-- Python slice `l[-k:]`: for `k > 0` the last `min(k, len(l))` elements;
for `k = 0` the whole list (`l[0:]`). -/
def pyLastSlice (l : List α) (k : Nat) : List α :=
  if k = 0 then l else l.drop (l.length - k)

/-- `pad_sequence(seq, length, dim)` (ckd_prediction.py:104-108): left-pad
with zero vectors when shorter than `length`, then keep `seq[-length:]`
(the row-stacking `np.stack` is the identity on the list of rows). -/
def pad_sequence (seq : List (List Int)) (length dim : Nat) : List (List Int) :=
  let s := if seq.length < length then List.replicate (length - seq.length) (zeroVec dim) ++ seq else seq
  pyLastSlice s length

/-- The tuple returned by `CKDSequenceDataset.__getitem__`
(ckd_prediction.py:119-127): the stored window with its context padded. -/
def datasetGetItem (data : List Window) (window_size embed_dim idx : Nat) : Window :=
  let w := data.getD idx ⟨[], 0, 0, 0⟩
  ⟨pad_sequence w.context window_size embed_dim, w.target, w.pid, w.local_index⟩

/-- C3: for positive `W` the padded context always has length exactly `W`:
a short history is left-padded with zero vectors of dimension `D`, a long
one keeps exactly the most recent `W` embeddings in order; the dataset
item therefore always carries a context of length `W`. -/
theorem c3_pad_sequence_length (seq : List (List Int)) (W dim : Nat) (hW : 1 ≤ W)
    (data : List Window) (idx : Nat) :
    (pad_sequence seq W dim).length = W ∧
    (seq.length < W →
      pad_sequence seq W dim = List.replicate (W - seq.length) (zeroVec dim) ++ seq) ∧
    (W ≤ seq.length → pad_sequence seq W dim = seq.drop (seq.length - W)) ∧
    (datasetGetItem data W dim idx).context.length = W := by
  have hW0 : W ≠ 0 := by omega
  have hmain : ∀ t : List (List Int), (pad_sequence t W dim).length = W := by
    intro t
    by_cases hlt : t.length < W
    · simp only [pad_sequence, if_pos hlt, pyLastSlice, if_neg hW0]
      rw [List.length_drop]
      simp [List.length_replicate]
      omega
    · simp only [pad_sequence, if_neg hlt, pyLastSlice, if_neg hW0]
      rw [List.length_drop]
      omega
  refine ⟨hmain seq, ?_, ?_, hmain _⟩
  · intro hlt
    simp only [pad_sequence, if_pos hlt, pyLastSlice, if_neg hW0]
    have : (List.replicate (W - seq.length) (zeroVec dim) ++ seq).length - W = 0 := by
      simp [List.length_replicate]
      omega
    rw [this, List.drop_zero]
  · intro hge
    have hlt : ¬ seq.length < W := by omega
    simp only [pad_sequence, if_neg hlt, pyLastSlice, if_neg hW0]

/-- Witness for C3: a 3-visit history with `W = 10`, `D = 2` gets 7 zero
vectors prepended; a 4-visit history with `W = 2` keeps the last 2. -/
theorem c3_witness :
    (pad_sequence [[1, 1], [2, 2], [3, 3]] 10 2).length = 10 ∧
    pad_sequence [[1, 1], [2, 2], [3, 3]] 10 2 =
      List.replicate 7 (zeroVec 2) ++ [[1, 1], [2, 2], [3, 3]] ∧
    pad_sequence [[1], [2], [3], [4]] 2 1 = [[3], [4]] ∧
    (datasetGetItem [⟨[[5, 5]], 1, 3, 0⟩] 10 2 0).context.length = 10 := by
  have h := c3_pad_sequence_length [[1, 1], [2, 2], [3, 3]] 10 2 (by decide)
    [⟨[[5, 5]], 1, 3, 0⟩] 0
  have h2 := c3_pad_sequence_length [[1], [2], [3], [4]] 2 1 (by decide) [] 0
  refine ⟨h.1, ?_, ?_, (c3_pad_sequence_length [[5, 5]] 10 2 (by decide)
    [⟨[[5, 5]], 1, 3, 0⟩] 0).2.2.2⟩
  · have := h.2.1 (by decide)
    simpa using this
  · have := h2.2.2.1 (by decide)
    simpa using this

/-- Mutable state of the `train_and_evaluate` epoch loop
(ckd_prediction.py:328-330): `best_val_loss` (`none` models the initial
`float('inf')`), the no-improvement counter, and the epoch index of the
last saved checkpoint (`none` = no checkpoint file written yet).
Validation losses are modelled as rationals. -/
structure TrainState where
  best_val_loss : Option ℚ
  epochs_no_improve : Nat
  ckpt : Option Nat
deriving DecidableEq

def initTrainState : TrainState := ⟨none, 0, none⟩

/-- `avg_val_loss < best_val_loss` (ckd_prediction.py:363); anything
improves on the initial infinity. -/
def improvesB (v : ℚ) : Option ℚ → Bool
  | none => true
  | some b => decide (v < b)

/-- One epoch of the early-stopping bookkeeping
(ckd_prediction.py:363-372): on strict improvement save a checkpoint at
epoch `e` and reset the counter; otherwise increment the counter and
report whether the `break` fires (`epochs_no_improve >= patience`). -/
def epochStep (patience : Nat) (e : Nat) (v : ℚ) (st : TrainState) : TrainState × Bool :=
  if improvesB v st.best_val_loss then
    (⟨some v, 0, some e⟩, false)
  else
    let c := st.epochs_no_improve + 1
    (⟨st.best_val_loss, c, st.ckpt⟩, decide (patience ≤ c))

/-- The epoch loop of `train_and_evaluate` over the per-epoch mean
validation losses: returns the final state, the number of epochs
executed, and whether the loop was left by the early-stopping break. -/
def trainGo (patience : Nat) : List ℚ → Nat → TrainState → TrainState × Nat × Bool
  | [], _, st => (st, 0, false)
  | v :: rest, e, st =>
    let r0 := epochStep patience e v st
    if r0.2 then (r0.1, 1, true)
    else
      let r := trainGo patience rest (e + 1) r0.1
      (r.1, r.2.1 + 1, r.2.2)

def trainRun (patience : Nat) (losses : List ℚ) : TrainState × Nat × Bool :=
  trainGo patience losses 0 initTrainState

/-- End of `train_and_evaluate` (ckd_prediction.py:374-409): after the
loop the best checkpoint is reloaded unconditionally; if no checkpoint
was ever written, `torch.load` raises (modelled as an error). The value
`.ok e` records that the weights of epoch `e` — the saved best — are the
ones evaluated on the test set. -/
def train_and_evaluate (patience : Nat) (losses : List ℚ) : Except String Nat :=
  match (trainRun patience losses).1.ckpt with
  | none => Except.error "FileNotFoundError"
  | some e => Except.ok e

theorem trainGo_count_of_not_stopped (p : Nat) (l : List ℚ) :
    ∀ (e : Nat) (st : TrainState), (trainGo p l e st).2.2 = false →
    (trainGo p l e st).2.1 = l.length := by
  induction l with
  | nil => intro e st _; rfl
  | cons v rest ih =>
    intro e st h
    simp only [trainGo] at h ⊢
    by_cases hs : (epochStep p e v st).2 = true
    · rw [if_pos hs] at h
      exact absurd h (by simp)
    · rw [if_neg hs] at h ⊢
      have := ih (e + 1) (epochStep p e v st).1 h
      simp [this]

theorem trainGo_append_of_not_stopped (p : Nat) (l1 : List ℚ) :
    ∀ (l2 : List ℚ) (e : Nat) (st : TrainState),
    (trainGo p l1 e st).2.2 = false →
    trainGo p (l1 ++ l2) e st =
      ((trainGo p l2 (e + l1.length) (trainGo p l1 e st).1).1,
       l1.length + (trainGo p l2 (e + l1.length) (trainGo p l1 e st).1).2.1,
       (trainGo p l2 (e + l1.length) (trainGo p l1 e st).1).2.2) := by
  induction l1 with
  | nil =>
    intro l2 e st _
    simp [trainGo]
  | cons v rest ih =>
    intro l2 e st h
    cases hs : (epochStep p e v st).2 with
    | true => simp [trainGo, hs] at h
    | false =>
      have e1 : trainGo p (v :: rest) e st =
          ((trainGo p rest (e + 1) (epochStep p e v st).1).1,
           (trainGo p rest (e + 1) (epochStep p e v st).1).2.1 + 1,
           (trainGo p rest (e + 1) (epochStep p e v st).1).2.2) := by
        simp [trainGo, hs]
      have e2 : trainGo p ((v :: rest) ++ l2) e st =
          ((trainGo p (rest ++ l2) (e + 1) (epochStep p e v st).1).1,
           (trainGo p (rest ++ l2) (e + 1) (epochStep p e v st).1).2.1 + 1,
           (trainGo p (rest ++ l2) (e + 1) (epochStep p e v st).1).2.2) := by
        simp [trainGo, hs]
      have hrest : (trainGo p rest (e + 1) (epochStep p e v st).1).2.2 = false := by
        rw [e1] at h
        exact h
      rw [e2, ih l2 (e + 1) _ hrest, e1]
      have harith : e + 1 + rest.length = e + (v :: rest).length := by
        simp
        omega
      rw [harith]
      simp only [Prod.mk.injEq]
      refine ⟨trivial, ?_, trivial⟩
      simp
      omega

theorem trainGo_no_improve (p : Nat) (b : ℚ) (l : List ℚ) :
    ∀ (e : Nat) (st : TrainState),
    st.best_val_loss = some b →
    st.epochs_no_improve < p →
    p - st.epochs_no_improve ≤ l.length →
    (∀ j, j < p - st.epochs_no_improve → ¬ (l.getD j 0 < b)) →
    trainGo p l e st = (⟨some b, p, st.ckpt⟩, p - st.epochs_no_improve, true) := by
  induction l with
  | nil =>
    intro e st _ hc hlen _
    exfalso
    simp at hlen
    omega
  | cons v rest ih =>
    intro e st hb hc hlen hni
    have hv : ¬ (v < b) := by
      have := hni 0 (by omega)
      simpa using this
    have himp : improvesB v st.best_val_loss = false := by
      rw [hb]
      simp [improvesB, hv]
    have hstep : epochStep p e v st =
        (⟨st.best_val_loss, st.epochs_no_improve + 1, st.ckpt⟩,
         decide (p ≤ st.epochs_no_improve + 1)) := by
      simp [epochStep, himp]
    by_cases hstop : p ≤ st.epochs_no_improve + 1
    · have h1 : p - st.epochs_no_improve = 1 := by omega
      have h2 : st.epochs_no_improve + 1 = p := by omega
      simp [trainGo, hstep, hstop, h1, hb, h2]
    · have hni2 : ∀ j, j < p - (st.epochs_no_improve + 1) → ¬ (rest.getD j 0 < b) := by
        intro j hj
        have := hni (j + 1) (by omega)
        simpa using this
      have hchild := ih (e + 1) ⟨st.best_val_loss, st.epochs_no_improve + 1, st.ckpt⟩
        (by simpa using hb) (by simp; omega)
        (by simp at hlen ⊢; omega) (by simpa using hni2)
      simp only [trainGo, hstep, decide_eq_true_eq]
      rw [if_neg (by simpa using hstop)]
      simp only [hchild]
      simp only [Prod.mk.injEq]
      refine ⟨trivial, by omega, trivial⟩

/-- C4: a checkpoint is written exactly on strict improvement of the mean
validation loss (resetting the counter); otherwise the counter grows and
the loop breaks when it reaches `patience`. If the last improvement is at
(1-based) epoch `k` — the loop has not stopped before, epoch `k`
improves, and the next `patience` losses do not — then training executes
exactly `k + patience` epochs, stops early, the saved checkpoint is the
one of epoch `k` (index `k-1`), and the final evaluation reloads exactly
that checkpoint, which is not the final executed epoch. -/
theorem c4_early_stopping (p k : Nat) (losses : List ℚ)
    (hp : 1 ≤ p) (hk : 1 ≤ k) (hlen : k + p ≤ losses.length)
    (hpre : (trainGo p (losses.take (k - 1)) 0 initTrainState).2.2 = false)
    (himp : improvesB (losses.getD (k - 1) 0)
      (trainGo p (losses.take (k - 1)) 0 initTrainState).1.best_val_loss = true)
    (hafter : ∀ j, k ≤ j → j < k + p → ¬ (losses.getD j 0 < losses.getD (k - 1) 0)) :
    (trainRun p losses).2.1 = k + p ∧
    (trainRun p losses).2.2 = true ∧
    (trainRun p losses).1.ckpt = some (k - 1) ∧
    (trainRun p losses).1.best_val_loss = some (losses.getD (k - 1) 0) ∧
    train_and_evaluate p losses = Except.ok (k - 1) ∧
    k - 1 < k + p - 1 := by
  have hk1 : k - 1 < losses.length := by omega
  have hdrop : losses.drop (k - 1) = losses.getD (k - 1) 0 :: losses.drop k := by
    have hkk : k - 1 + 1 = k := by omega
    rw [List.getD_eq_getElem _ _ hk1, List.drop_eq_getElem_cons hk1, hkk]
  set pre := losses.take (k - 1) with hpredef
  have hsplit : losses = pre ++ losses.drop (k - 1) := (List.take_append_drop _ _).symm
  have hprelen : pre.length = k - 1 := by
    rw [hpredef, List.length_take]
    omega
  have happ := trainGo_append_of_not_stopped p pre (losses.drop (k - 1)) 0 initTrainState hpre
  set st1 := (trainGo p pre 0 initTrainState).1 with hst1
  have hstep : epochStep p (0 + pre.length) (losses.getD (k - 1) 0) st1 =
      (⟨some (losses.getD (k - 1) 0), 0, some (k - 1)⟩, false) := by
    simp only [epochStep, himp, if_pos]
    rw [hprelen]
    simp
  have htail : trainGo p (losses.drop k) ((0 + pre.length) + 1)
      ⟨some (losses.getD (k - 1) 0), 0, some (k - 1)⟩ =
      (⟨some (losses.getD (k - 1) 0), p, some (k - 1)⟩, p, true) := by
    have hlen2 : p - (0 : Nat) ≤ (losses.drop k).length := by
      rw [List.length_drop]
      omega
    have hni : ∀ j, j < p - (0 : Nat) → ¬ ((losses.drop k).getD j 0 < losses.getD (k - 1) 0) := by
      intro j hj
      have hkj : k + j < losses.length := by omega
      have hjd : j < (losses.drop k).length := by
        rw [List.length_drop]
        omega
      have hgd : (losses.drop k).getD j 0 = losses.getD (k + j) 0 := by
        rw [List.getD_eq_getElem _ _ hjd, List.getD_eq_getElem _ _ hkj]
        exact List.getElem_drop _
      rw [hgd]
      exact hafter (k + j) (by omega) (by omega)
    have happly := trainGo_no_improve p (losses.getD (k - 1) 0) (losses.drop k)
      ((0 + pre.length) + 1) ⟨some (losses.getD (k - 1) 0), 0, some (k - 1)⟩
      rfl (by simpa using hp) hlen2 hni
    simpa using happly
  have hconsgo : trainGo p (losses.getD (k - 1) 0 :: losses.drop k) (0 + pre.length) st1 =
      ((⟨some (losses.getD (k - 1) 0), p, some (k - 1)⟩ : TrainState), p + 1, true) := by
    simp only [trainGo, hstep]
    rw [if_neg (by simp)]
    rw [htail]
  have hwhole : trainRun p losses = (⟨some (losses.getD (k - 1) 0), p, some (k - 1)⟩, k + p, true) := by
    rw [trainRun]
    conv_lhs => rw [hsplit]
    rw [happ, hdrop, hconsgo]
    simp only [Prod.mk.injEq]
    refine ⟨trivial, ?_, trivial⟩
    rw [hprelen]
    omega
  refine ⟨by rw [hwhole], by rw [hwhole], by rw [hwhole], by rw [hwhole], ?_, by omega⟩
  rw [train_and_evaluate, hwhole]

/-- Witness for C4: losses `[5, 3, 4, 4]` with patience 2: last
improvement at epoch 2 (1-based), so training stops after 4 epochs and
the reloaded checkpoint is epoch index 1, not the final epoch. -/
theorem c4_witness :
    (trainRun 2 [5, 3, 4, 4]).2.1 = 2 + 2 ∧
    (trainRun 2 [5, 3, 4, 4]).2.2 = true ∧
    (trainRun 2 [5, 3, 4, 4]).1.ckpt = some (2 - 1) ∧
    train_and_evaluate 2 [5, 3, 4, 4] = Except.ok (2 - 1) := by
  have h := c4_early_stopping 2 2 [5, 3, 4, 4] (by decide) (by decide) (by decide)
    (by decide) (by decide)
    (by
      intro j h1 h2
      interval_cases j <;> decide)
  exact ⟨h.1, h.2.1, h.2.2.1, h.2.2.2.2.1⟩

/-- sklearn's `train_test_split(arr, test_size, random_state)`: the
seeded PRNG permutation is abstracted as an already-shuffled list; the
first `n_test` permuted elements form the test side, the rest the train
side. -/
def train_test_split (shuffled : List Nat) (n_test : Nat) : List Nat × List Nat :=
  (shuffled.drop n_test, shuffled.take n_test)

/-- The two sequential splits of `main` (ckd_prediction.py:483-486):
20% of patients held out as test (`ceil` size), then 10% of the
remainder as validation; `shuffle` stands for the seed-determined
permutation applied by sklearn. Returns (train, val, test). -/
def makeSplits (shuffle : Nat → List Nat → List Nat) (seed : Nat) (patients : List Nat) :
    List Nat × List Nat × List Nat :=
  let s1 := train_test_split (shuffle seed patients) ((patients.length + 4) / 5)
  let s2 := train_test_split (shuffle seed s1.1) ((s1.1.length + 9) / 10)
  (s2.1, s2.2, s1.2)

/-- C6: for every seed (i.e. every permutation-valued shuffle) and every
duplicate-free patient population, the three split lists are a
partition: their concatenation is a permutation of the population (so
every patient lands in exactly one split) and they are pairwise
disjoint; moreover every window built from metadata filtered to a split
membership list carries a patient id inside that list, so no window
spans two splits. -/
theorem c6_split_partition :
    (∀ (shuffle : Nat → List Nat → List Nat) (seed : Nat) (patients : List Nat),
      (∀ s l, (shuffle s l).Perm l) → patients.Nodup →
      ((makeSplits shuffle seed patients).1 ++ (makeSplits shuffle seed patients).2.1 ++
        (makeSplits shuffle seed patients).2.2).Perm patients ∧
      (∀ x, x ∈ patients → x ∈ (makeSplits shuffle seed patients).1 ∨
        x ∈ (makeSplits shuffle seed patients).2.1 ∨
        x ∈ (makeSplits shuffle seed patients).2.2) ∧
      List.Disjoint (makeSplits shuffle seed patients).1 (makeSplits shuffle seed patients).2.1 ∧
      List.Disjoint (makeSplits shuffle seed patients).1 (makeSplits shuffle seed patients).2.2 ∧
      List.Disjoint (makeSplits shuffle seed patients).2.1 (makeSplits shuffle seed patients).2.2) ∧
    (∀ (meta : List Row) (W : Nat) (S : List Nat) (w : Window),
      w ∈ build_sequences (meta.filter (fun r => decide (r.patientId ∈ S))) W →
      w.pid ∈ S) := by
  constructor
  · intro shuffle seed patients hsh hnd
    simp only [makeSplits, train_test_split]
    set P := shuffle seed patients with hP
    set nt := (patients.length + 4) / 5 with hnt
    set Q := shuffle seed (P.drop nt) with hQ
    set nv := ((P.drop nt).length + 9) / 10 with hnv
    have hPerm : P.Perm patients := hsh seed patients
    have hQPerm : Q.Perm (P.drop nt) := hsh seed (P.drop nt)
    have h2 : (Q.drop nv ++ Q.take nv).Perm Q := by
      have h3 := @List.perm_append_comm _ (Q.drop nv) (Q.take nv)
      rw [List.take_append_drop] at h3
      exact h3
    have h4 : (P.drop nt ++ P.take nt).Perm P := by
      have h5 := @List.perm_append_comm _ (P.drop nt) (P.take nt)
      rw [List.take_append_drop] at h5
      exact h5
    have hperm : (Q.drop nv ++ Q.take nv ++ P.take nt).Perm patients := by
      have s1 : (Q.drop nv ++ Q.take nv ++ P.take nt).Perm (Q ++ P.take nt) :=
        h2.append_right (P.take nt)
      have s2 : (Q ++ P.take nt).Perm (P.drop nt ++ P.take nt) :=
        hQPerm.append_right (P.take nt)
      exact s1.trans (s2.trans (h4.trans hPerm))
    have hnodup : (Q.drop nv ++ Q.take nv ++ P.take nt).Nodup :=
      (hperm.nodup_iff).mpr hnd
    rw [List.nodup_append, List.nodup_append] at hnodup
    obtain ⟨⟨_, _, hdAB⟩, _, hdABC⟩ := hnodup
    have hdAC : List.Disjoint (Q.drop nv) (P.take nt) := by
      intro a ha hc
      exact hdABC (List.mem_append.mpr (Or.inl ha)) hc
    have hdBC : List.Disjoint (Q.take nv) (P.take nt) := by
      intro a ha hc
      exact hdABC (List.mem_append.mpr (Or.inr ha)) hc
    refine ⟨hperm, ?_, hdAB, hdAC, hdBC⟩
    intro x hx
    have hx2 : x ∈ Q.drop nv ++ Q.take nv ++ P.take nt := (hperm.mem_iff).mpr hx
    rcases List.mem_append.mp hx2 with h | h
    · rcases List.mem_append.mp h with h' | h'
      · exact Or.inl h'
      · exact Or.inr (Or.inl h')
    · exact Or.inr (Or.inr h)
  · intro meta W S w hw
    simp only [build_sequences, List.mem_flatten] at hw
    obtain ⟨l, hl, hwl⟩ := hw
    simp only [List.mem_map] at hl
    obtain ⟨pg, hpg, rfl⟩ := hl
    have hpid : w.pid = pg.1 := by
      simp only [patient_windows, List.mem_map] at hwl
      obtain ⟨i, _, rfl⟩ := hwl
      rfl
    have hkey : pg.1 ∈ groupKeys (meta.filter fun r => decide (r.patientId ∈ S)) := by
      simp only [groupBy, List.mem_map] at hpg
      obtain ⟨k, hk, hpg2⟩ := hpg
      rw [← hpg2]
      exact hk
    have hrow : pg.1 ∈ (meta.filter fun r => decide (r.patientId ∈ S)).map Row.patientId := by
      have hdd := (mem_sortListBy Nat.ble pg.1 _).mp hkey
      exact List.mem_dedup.mp hdd
    obtain ⟨r, hr, hrpid⟩ := List.mem_map.mp hrow
    have hrS := (List.mem_filter.mp hr).2
    rw [hpid, ← hrpid]
    exact of_decide_eq_true hrS

/-- Witness for C6 with the identity shuffle on five patients, plus a
concrete window built from split-filtered metadata. -/
theorem c6_witness :
    ((makeSplits (fun _ l => l) 0 [1, 2, 3, 4, 5]).1 ++
      (makeSplits (fun _ l => l) 0 [1, 2, 3, 4, 5]).2.1 ++
      (makeSplits (fun _ l => l) 0 [1, 2, 3, 4, 5]).2.2).Perm [1, 2, 3, 4, 5] ∧
    List.Disjoint (makeSplits (fun _ l => l) 0 [1, 2, 3, 4, 5]).1
      (makeSplits (fun _ l => l) 0 [1, 2, 3, 4, 5]).2.1 ∧
    (⟨[[9]], 1, 1, 0⟩ : Window).pid ∈ [1] := by
  have h := c6_split_partition.1 (fun _ l => l) 0 [1, 2, 3, 4, 5]
    (fun _ l => List.Perm.refl l) (by decide)
  refine ⟨h.1, h.2.2.1, ?_⟩
  exact c6_split_partition.2 [⟨1, 0, [9], 1⟩, ⟨1, 1, [8], 0⟩] 5 [1]
    ⟨[[9]], 1, 1, 0⟩ (by decide)

/-- One row of the prediction table built by `predict_label_switches`
(ckd_prediction.py:411-424): patient id, window position, true and
predicted labels. -/
structure PredRecord where
  pid : Nat
  localIndex : Nat
  trueLabel : Int
  predLabel : Int
deriving DecidableEq

/-- One output row of `analyze_switches`: switch indices are `none` when
the patient has no 1 in the respective label stream; the difference is
`none` when either side is (pandas NaN propagation). -/
structure SwitchRow where
  pid : Nat
  trueSwitch : Option Nat
  predSwitch : Option Nat
  switchDifference : Option Int
deriving DecidableEq

/-- Keys of `df.groupby("PatientID")`, ascending. -/
def predKeys (df : List PredRecord) : List Nat :=
  sortListBy Nat.ble (df.map PredRecord.pid).dedup

def predGroupBy (df : List PredRecord) : List (Nat × List PredRecord) :=
  (predKeys df).map (fun k => (k, df.filter (fun r => r.pid == k)))

/-- pandas `Series.min()`: `none` on an empty selection (NaN). -/
def listMin : List Nat → Option Nat
  | [] => none
  | x :: rest =>
    match listMin rest with
    | none => some x
    | some m => some (min x m)

/-- Per-group body of `analyze_switches` (ckd_prediction.py:429-437):
sort by `LocalIndex`, take the least local index with true label 1 and
with predicted label 1, and subtract when both exist. -/
def switchRowOf (pg : Nat × List PredRecord) : SwitchRow :=
  let g := sortListBy (fun a b => Nat.ble a.localIndex b.localIndex) pg.2
  let ts := listMin ((g.filter (fun r => r.trueLabel == 1)).map PredRecord.localIndex)
  let ps := listMin ((g.filter (fun r => r.predLabel == 1)).map PredRecord.localIndex)
  ⟨pg.1, ts, ps,
    match ts, ps with
    | some t, some q => some ((q : Int) - (t : Int))
    | _, _ => none⟩

/-- `analyze_switches(df)` (ckd_prediction.py:426-440). -/
def analyze_switches (df : List PredRecord) : List SwitchRow :=
  (predGroupBy df).map switchRowOf

theorem listMin_eq_none_iff (l : List Nat) : listMin l = none ↔ l = [] := by
  cases l with
  | nil => simp [listMin]
  | cons x rest =>
    simp only [listMin]
    cases listMin rest <;> simp

theorem listMin_eq_some_iff (l : List Nat) (m : Nat) :
    listMin l = some m ↔ (m ∈ l ∧ ∀ x ∈ l, m ≤ x) := by
  induction l generalizing m with
  | nil => simp [listMin]
  | cons x rest ih =>
    simp only [listMin]
    cases hr : listMin rest with
    | none =>
      have hnil : rest = [] := (listMin_eq_none_iff rest).mp hr
      subst hnil
      show some x = some m ↔ _
      constructor
      · intro h
        have hmx : x = m := Option.some.inj h
        refine ⟨List.mem_singleton.mpr hmx.symm, ?_⟩
        intro y hy
        have hyx : y = x := List.mem_singleton.mp hy
        omega
      · rintro ⟨hmem, _⟩
        have hmx : m = x := List.mem_singleton.mp hmem
        rw [hmx]
    | some m2 =>
      have hm2 := (ih m2).mp hr
      constructor
      · intro h
        have hmm : m = min x m2 := (Option.some.inj h).symm
        subst hmm
        constructor
        · rcases Nat.le_total x m2 with hle | hle
          · rw [Nat.min_eq_left hle]
            exact List.mem_cons_self x rest
          · rw [Nat.min_eq_right hle]
            exact List.mem_cons_of_mem x hm2.1
        · intro y hy
          rcases List.mem_cons.mp hy with h1 | h1
          · rw [h1]
            exact Nat.min_le_left x m2
          · exact Nat.le_trans (Nat.min_le_right x m2) (hm2.2 y h1)
      · rintro ⟨hmem, hlb⟩
        have h1 : m ≤ x := hlb x (List.mem_cons_self x rest)
        have h2 : m ≤ m2 := hlb m2 (List.mem_cons_of_mem x hm2.1)
        have h3 : min x m2 ≤ m := by
          rcases List.mem_cons.mp hmem with hmx | hmr
          · subst hmx
            exact Nat.min_le_left m m2
          · exact Nat.le_trans (Nat.min_le_right x m2) (hm2.2 m hmr)
        have h4 : min x m2 = m := Nat.le_antisymm h3 (Nat.le_min.mpr ⟨h1, h2⟩)
        show some (min x m2) = some m
        exact congrArg some h4

theorem listMin_map_filter (P : PredRecord → Bool) (l : List PredRecord) :
    (∀ t, listMin ((l.filter P).map PredRecord.localIndex) = some t ↔
      ((∃ r ∈ l, P r = true ∧ r.localIndex = t) ∧
       (∀ r ∈ l, P r = true → t ≤ r.localIndex))) ∧
    (listMin ((l.filter P).map PredRecord.localIndex) = none ↔
      ∀ r ∈ l, ¬ P r = true) := by
  constructor
  · intro t
    rw [listMin_eq_some_iff]
    constructor
    · rintro ⟨hmem, hlb⟩
      obtain ⟨r, hr, hrt⟩ := List.mem_map.mp hmem
      have hrf := List.mem_filter.mp hr
      refine ⟨⟨r, hrf.1, hrf.2, hrt⟩, ?_⟩
      intro s hs hPs
      exact hlb s.localIndex (List.mem_map.mpr ⟨s, List.mem_filter.mpr ⟨hs, hPs⟩, rfl⟩)
    · rintro ⟨⟨r, hr, hP, hidx⟩, hlb⟩
      refine ⟨List.mem_map.mpr ⟨r, List.mem_filter.mpr ⟨hr, hP⟩, hidx⟩, ?_⟩
      intro y hy
      obtain ⟨s, hs, hst⟩ := List.mem_map.mp hy
      have hsf := List.mem_filter.mp hs
      rw [← hst]
      exact hlb s hsf.1 hsf.2
  · rw [listMin_eq_none_iff, List.map_eq_nil_iff, List.filter_eq_nil_iff]

theorem switchRowOf_pid (p : Nat) (g : List PredRecord) :
    (switchRowOf (p, g)).pid = p := rfl

theorem switchRowOf_trueSwitch (p : Nat) (g : List PredRecord) :
    (switchRowOf (p, g)).trueSwitch =
      listMin (((sortListBy (fun a b => Nat.ble a.localIndex b.localIndex) g).filter
        (fun r => r.trueLabel == 1)).map PredRecord.localIndex) := rfl

theorem switchRowOf_predSwitch (p : Nat) (g : List PredRecord) :
    (switchRowOf (p, g)).predSwitch =
      listMin (((sortListBy (fun a b => Nat.ble a.localIndex b.localIndex) g).filter
        (fun r => r.predLabel == 1)).map PredRecord.localIndex) := rfl

theorem switchRowOf_diff (p : Nat) (g : List PredRecord) :
    (switchRowOf (p, g)).switchDifference =
      match (switchRowOf (p, g)).trueSwitch, (switchRowOf (p, g)).predSwitch with
      | some t, some q => some ((q : Int) - (t : Int))
      | _, _ => none := rfl

/-- C5: `analyze_switches` emits one row per patient (in ascending key
order); the row's true switch index is the least local index with true
label 1 (`none` when there is none), likewise for predictions, and the
difference `pred - true` is present exactly when both switch indices
are. -/
theorem c5_switch_analysis (df : List PredRecord) :
    (analyze_switches df).map SwitchRow.pid = predKeys df ∧
    (∀ p g, (p, g) ∈ predGroupBy df →
      switchRowOf (p, g) ∈ analyze_switches df ∧
      (switchRowOf (p, g)).pid = p ∧
      (∀ t, (switchRowOf (p, g)).trueSwitch = some t ↔
        ((∃ r ∈ g, r.trueLabel = 1 ∧ r.localIndex = t) ∧
         ∀ r ∈ g, r.trueLabel = 1 → t ≤ r.localIndex)) ∧
      ((switchRowOf (p, g)).trueSwitch = none ↔ ∀ r ∈ g, r.trueLabel ≠ 1) ∧
      (∀ q, (switchRowOf (p, g)).predSwitch = some q ↔
        ((∃ r ∈ g, r.predLabel = 1 ∧ r.localIndex = q) ∧
         ∀ r ∈ g, r.predLabel = 1 → q ≤ r.localIndex)) ∧
      ((switchRowOf (p, g)).predSwitch = none ↔ ∀ r ∈ g, r.predLabel ≠ 1) ∧
      (∀ t q, (switchRowOf (p, g)).trueSwitch = some t →
        (switchRowOf (p, g)).predSwitch = some q →
        (switchRowOf (p, g)).switchDifference = some ((q : Int) - (t : Int))) ∧
      (((switchRowOf (p, g)).trueSwitch = none ∨ (switchRowOf (p, g)).predSwitch = none) →
        (switchRowOf (p, g)).switchDifference = none)) := by
  constructor
  · rw [analyze_switches, predGroupBy, List.map_map, List.map_map]
    conv_rhs => rw [← List.map_id (predKeys df)]
    apply List.map_congr_left
    intro k _
    rfl
  · intro p g hpg
    refine ⟨List.mem_map.mpr ⟨(p, g), hpg, rfl⟩, rfl, ?_, ?_, ?_, ?_, ?_, ?_⟩
    · intro t
      rw [switchRowOf_trueSwitch,
        (listMin_map_filter (fun r => r.trueLabel == 1)
          (sortListBy (fun a b => Nat.ble a.localIndex b.localIndex) g)).1 t]
      constructor
      · rintro ⟨⟨r, hr, hP, hidx⟩, hlb⟩
        refine ⟨⟨r, (mem_sortListBy _ _ _).mp hr, by simpa using hP, hidx⟩, ?_⟩
        intro s hs hs1
        exact hlb s ((mem_sortListBy _ _ _).mpr hs) (by simpa using hs1)
      · rintro ⟨⟨r, hr, hP, hidx⟩, hlb⟩
        refine ⟨⟨r, (mem_sortListBy _ _ _).mpr hr, by simpa using hP, hidx⟩, ?_⟩
        intro s hs hs1
        exact hlb s ((mem_sortListBy _ _ _).mp hs) (by simpa using hs1)
    · rw [switchRowOf_trueSwitch,
        (listMin_map_filter (fun r => r.trueLabel == 1)
          (sortListBy (fun a b => Nat.ble a.localIndex b.localIndex) g)).2]
      constructor
      · intro h r hr
        have := h r ((mem_sortListBy _ _ _).mpr hr)
        simpa using this
      · intro h r hr
        have := h r ((mem_sortListBy _ _ _).mp hr)
        simpa using this
    · intro q
      rw [switchRowOf_predSwitch,
        (listMin_map_filter (fun r => r.predLabel == 1)
          (sortListBy (fun a b => Nat.ble a.localIndex b.localIndex) g)).1 q]
      constructor
      · rintro ⟨⟨r, hr, hP, hidx⟩, hlb⟩
        refine ⟨⟨r, (mem_sortListBy _ _ _).mp hr, by simpa using hP, hidx⟩, ?_⟩
        intro s hs hs1
        exact hlb s ((mem_sortListBy _ _ _).mpr hs) (by simpa using hs1)
      · rintro ⟨⟨r, hr, hP, hidx⟩, hlb⟩
        refine ⟨⟨r, (mem_sortListBy _ _ _).mpr hr, by simpa using hP, hidx⟩, ?_⟩
        intro s hs hs1
        exact hlb s ((mem_sortListBy _ _ _).mp hs) (by simpa using hs1)
    · rw [switchRowOf_predSwitch,
        (listMin_map_filter (fun r => r.predLabel == 1)
          (sortListBy (fun a b => Nat.ble a.localIndex b.localIndex) g)).2]
      constructor
      · intro h r hr
        have := h r ((mem_sortListBy _ _ _).mpr hr)
        simpa using this
      · intro h r hr
        have := h r ((mem_sortListBy _ _ _).mp hr)
        simpa using this
    · intro t q ht hq
      rw [switchRowOf_diff, ht, hq]
    · rintro (h | h)
      · rw [switchRowOf_diff, h]
      · rw [switchRowOf_diff, h]
        cases (switchRowOf (p, g)).trueSwitch with
        | none => rfl
        | some t => rfl

/-- Witness for C5: patient 1 has its first true 1 at local index 4 and
first predicted 1 at local index 6, giving difference 2; patient 2 has
no predicted 1, so its predicted switch and difference are undefined. -/
theorem c5_witness :
    (switchRowOf (1, [⟨1, 3, 0, 0⟩, ⟨1, 4, 1, 0⟩, ⟨1, 5, 1, 0⟩, ⟨1, 6, 1, 1⟩])).trueSwitch =
      some 4 ∧
    (switchRowOf (1, [⟨1, 3, 0, 0⟩, ⟨1, 4, 1, 0⟩, ⟨1, 5, 1, 0⟩, ⟨1, 6, 1, 1⟩])).predSwitch =
      some 6 ∧
    (switchRowOf (1, [⟨1, 3, 0, 0⟩, ⟨1, 4, 1, 0⟩, ⟨1, 5, 1, 0⟩,
      ⟨1, 6, 1, 1⟩])).switchDifference = some 2 ∧
    (switchRowOf (2, [⟨2, 0, 1, 0⟩, ⟨2, 1, 1, 0⟩])).predSwitch = none ∧
    (switchRowOf (2, [⟨2, 0, 1, 0⟩, ⟨2, 1, 1, 0⟩])).switchDifference = none ∧
    switchRowOf (1, [⟨1, 3, 0, 0⟩, ⟨1, 4, 1, 0⟩, ⟨1, 5, 1, 0⟩, ⟨1, 6, 1, 1⟩]) ∈
      analyze_switches [⟨1, 3, 0, 0⟩, ⟨1, 4, 1, 0⟩, ⟨1, 5, 1, 0⟩, ⟨1, 6, 1, 1⟩,
        ⟨2, 0, 1, 0⟩, ⟨2, 1, 1, 0⟩] := by
  have h := (c5_switch_analysis [⟨1, 3, 0, 0⟩, ⟨1, 4, 1, 0⟩, ⟨1, 5, 1, 0⟩, ⟨1, 6, 1, 1⟩,
    ⟨2, 0, 1, 0⟩, ⟨2, 1, 1, 0⟩]).2
  have h1 := h 1 [⟨1, 3, 0, 0⟩, ⟨1, 4, 1, 0⟩, ⟨1, 5, 1, 0⟩, ⟨1, 6, 1, 1⟩] (by decide)
  have h2 := h 2 [⟨2, 0, 1, 0⟩, ⟨2, 1, 1, 0⟩] (by decide)
  have hts : (switchRowOf (1, [⟨1, 3, 0, 0⟩, ⟨1, 4, 1, 0⟩, ⟨1, 5, 1, 0⟩,
      ⟨1, 6, 1, 1⟩])).trueSwitch = some 4 :=
    (h1.2.2.1 4).mpr (by decide)
  have hps : (switchRowOf (1, [⟨1, 3, 0, 0⟩, ⟨1, 4, 1, 0⟩, ⟨1, 5, 1, 0⟩,
      ⟨1, 6, 1, 1⟩])).predSwitch = some 6 :=
    (h1.2.2.2.2.1 6).mpr (by decide)
  have hps2 : (switchRowOf (2, [⟨2, 0, 1, 0⟩, ⟨2, 1, 1, 0⟩])).predSwitch = none :=
    h2.2.2.2.2.2.1.mpr (by decide)
  have hdiff := h1.2.2.2.2.2.2.1 4 6 hts hps
  have hdiff2 := h2.2.2.2.2.2.2.2 (Or.inr hps2)
  refine ⟨hts, hps, ?_, hps2, hdiff2, h1.1⟩
  rw [hdiff]
  norm_num

/-- `metadata.groupby('PatientID')['CKD_stage_clean'].bfill()`
(ckd_prediction.py:458) within one patient's chronologically sorted
rows: every missing stage takes the next non-missing stage below it. -/
def bfill : List (Option Int) → List (Option Int)
  | [] => []
  | v :: rest =>
    (match v with
     | some x => some x
     | none => rest.findSome? id) :: bfill rest

theorem bfill_length (vals : List (Option Int)) : (bfill vals).length = vals.length := by
  induction vals with
  | nil => rfl
  | cons v rest ih => simp [bfill, ih]

